import Mathlib

/-!
Verification of the advanced-vector repository (src/advanced-vector/vector.h).

The C++ code implements a growable array on raw memory:
  RawMemory<T>  - owns capacity_ uninitialized slots;
  Vector<T>     - owns a RawMemory plus size_, and manages which slots hold
                  constructed T objects.

Shallow embedding: a buffer is a `List (Option T)` whose length is the
allocated capacity; `none` is a raw (unconstructed) slot, `some t` is a slot
holding a constructed element with value `t`.  Every operation below is
translated from the member functions of Vector<T>; loops of the standard
algorithms the code calls (std::uninitialized_copy_n, std::copy_n,
std::destroy_n, std::move, std::move_backward,
std::uninitialized_value_construct_n) are embedded as structural recursions
over the slot lists.  Element copy constructors that may throw are modelled
with an oracle `ok : T → Bool` (copying value t succeeds iff `ok t`); the
exception-instrumented variants return `Except`, where the error value
records the state observable after the exception has propagated out.
-/

namespace AdvVec

variable {T : Type}

/-- A Vector<T> state: the slot list of its RawMemory (length = capacity_),
and size_. -/
structure Vec (T : Type) where
  buf : List (Option T)
  size : Nat
deriving DecidableEq, Repr

/-- Capacity() - the RawMemory capacity, i.e. the number of allocated slots. -/
def Vec.capacity (v : Vec T) : Nat := v.buf.length

/-- Reading slot i of a buffer (out of range reads as raw). -/
def getSlot (buf : List (Option T)) (i : Nat) : Option T := buf.getD i none

/-- Slot i of a vector. -/
def slotOf (v : Vec T) (i : Nat) : Option T := getSlot v.buf i

/-- The live range: slots at logical positions [0, size). -/
def live (v : Vec T) : List (Option T) := (List.range v.size).map (getSlot v.buf)

/-- std::uninitialized_copy_n / the copy arm of MoveIfItsPossible with
elements whose copy cannot fail: copies len slots from src starting at ss
into dst starting at ds. -/
def copySlots (src : List (Option T)) (ss : Nat) (dst : List (Option T)) (ds : Nat) :
    Nat → List (Option T)
  | 0 => dst
  | l + 1 => copySlots src (ss + 1) (dst.set ds (getSlot src ss)) (ds + 1) l

/-- std::destroy_n(buf + s, len): destroys the elements in slots [s, s+len). -/
def destroyRange (buf : List (Option T)) (s : Nat) : Nat → List (Option T)
  | 0 => buf
  | l + 1 => destroyRange (buf.set s none) (s + 1) l

/-- std::uninitialized_value_construct_n(buf + s, len), with d the
value-constructed element. -/
def valueConstructRange (buf : List (Option T)) (d : T) (s : Nat) : Nat → List (Option T)
  | 0 => buf
  | l + 1 => valueConstructRange (buf.set s (some d)) d (s + 1) l

/-- std::move_backward(begin+first, begin+first+len, begin+first+len+1):
shifts the slots [first, first+len) one slot to the right, processing the
highest position first. -/
def shiftRightSlots (buf : List (Option T)) (first : Nat) : Nat → List (Option T)
  | 0 => buf
  | l + 1 => shiftRightSlots (buf.set (first + l + 1) (getSlot buf (first + l))) first l

/-- std::move(begin+s+1, begin+s+1+len, begin+s): shifts the slots
[s+1, s+1+len) one slot to the left, processing the lowest position first. -/
def shiftLeftSlots (buf : List (Option T)) (s : Nat) : Nat → List (Option T)
  | 0 => buf
  | l + 1 => shiftLeftSlots (buf.set s (getSlot buf (s + 1))) (s + 1) l

/-- std::uninitialized_copy_n with a fallible element copy constructor
(copying value t succeeds iff `ok t`): constructs copies in order; if the
copy of some element throws, the elements already constructed by this call
are destroyed again (standard rollback of uninitialized_copy_n) and the
exception propagates.  Returns the destination buffer as observable after
the call together with a success flag. -/
def uninitCopyN (ok : T → Bool) (src : List (Option T)) (ss : Nat)
    (dst : List (Option T)) (ds : Nat) : Nat → List (Option T) × Bool
  | 0 => (dst, true)
  | l + 1 =>
    if (getSlot src ss).all ok then
      let r := uninitCopyN ok src (ss + 1) (dst.set ds (getSlot src ss)) (ds + 1) l
      if r.2 then r else (r.1.set ds none, false)
    else (dst, false)

/-- Vector() - default-constructed vector: null buffer, size 0. -/
def vecNil : Vec T := ⟨[], 0⟩

/-- Vector(size) - allocates `size` slots and value-constructs `size`
elements (d is the value-constructed element). -/
def vecSized (d : T) (n : Nat) : Vec T :=
  ⟨valueConstructRange (List.replicate n none) d 0 n, n⟩

/-- Vector(const Vector&) - allocates other.size_ slots and copy-constructs
the other live elements into them. -/
def vecCopy (v : Vec T) : Vec T :=
  ⟨copySlots v.buf 0 (List.replicate v.size none) 0 v.size, v.size⟩

/-- Vector(Vector&&) - move construction: the target adopts the source
state via Swap with a default-constructed vector; the source becomes empty.
Returns (target, source-after). -/
def vecMove (v : Vec T) : Vec T × Vec T := (v, vecNil)

/-- Swap(Vector&) - exchanges buffers and sizes. -/
def swapVec (a b : Vec T) : Vec T × Vec T := (b, a)

/-- Reserve(new_capacity): no-op when new_capacity <= Capacity(); otherwise
allocates new_capacity raw slots, transfers the size_ live elements into
them (MoveIfItsPossible), destroys the originals and swaps the buffers. -/
def reserve (v : Vec T) (n : Nat) : Vec T :=
  if n ≤ v.capacity then v
  else ⟨copySlots v.buf 0 (List.replicate n none) 0 v.size, v.size⟩

/-- Resize(new_size): shrinking destroys the trailing elements; growing
reserves and value-constructs the trailing new elements; size_ is set
last. -/
def resize (d : T) (v : Vec T) (n : Nat) : Vec T :=
  if n < v.size then ⟨destroyRange v.buf n (v.size - n), n⟩
  else ⟨valueConstructRange (reserve v n).buf d v.size (n - v.size), n⟩

/-- EmplaceWithRelocation(pos, args...): p is pos - begin().  Allocates
(size_ == 0 ? 1 : size_ * 2) slots, constructs the new element at index p
in the new buffer, transfers the old [0, p) to [0, p) and the old
[p, size_) to [p+1, size_+1), destroys the old elements, swaps, ++size_. -/
def emplaceWithRelocation (v : Vec T) (p : Nat) (x : T) : Vec T :=
  let newCap := if v.size = 0 then 1 else v.size * 2
  let nd1 := (List.replicate newCap (none : Option T)).set p (some x)
  let nd2 := copySlots v.buf 0 nd1 0 p
  let nd3 := copySlots v.buf p nd2 (p + 1) (v.size - p)
  ⟨nd3, v.size + 1⟩

/-- EmplaceWithoutRelocation(pos, args...): inserting at the end constructs
directly in the free slot; otherwise build the new value, move-construct
the last element into the free slot, move_backward [p, size_-1) one slot
right, and move-assign the new value into slot p. -/
def emplaceWithoutRelocation (v : Vec T) (p : Nat) (x : T) : Vec T :=
  if p = v.size then ⟨v.buf.set v.size (some x), v.size + 1⟩
  else
    let b1 := v.buf.set v.size (getSlot v.buf (v.size - 1))
    let b2 := shiftRightSlots b1 p (v.size - 1 - p)
    ⟨b2.set p (some x), v.size + 1⟩

/-- Emplace(pos, args...): relocating when size_ == Capacity(), in place
otherwise. -/
def emplace (v : Vec T) (p : Nat) (x : T) : Vec T :=
  if v.size = v.capacity then emplaceWithRelocation v p x
  else emplaceWithoutRelocation v p x

/-- Emplace also returns begin() + index; the second component records the
index the returned iterator points at. -/
def emplaceIdx (v : Vec T) (p : Nat) (x : T) : Vec T × Nat := (emplace v p x, p)

/-- Insert(pos, value) - delegates to Emplace. -/
def insert (v : Vec T) (p : Nat) (x : T) : Vec T := emplace v p x

/-- EmplaceBack(args...) - Emplace at end(); returns (new state, index of
the element the returned reference denotes). -/
def emplaceBack (v : Vec T) (x : T) : Vec T × Nat := emplaceIdx v v.size x

/-- PushBack(value) - calls EmplaceBack and discards the reference (the
member is declared void). -/
def pushBack (v : Vec T) (x : T) : Vec T := (emplaceBack v x).1

/-- PopBack(): --size_; destroy_at(data_ + size_). -/
def popBack (v : Vec T) : Vec T := ⟨v.buf.set (v.size - 1) none, v.size - 1⟩

/-- Erase(pos): shifts [p+1, size_) one slot left by move-assignment,
destroys the vacated last slot, --size_. -/
def erase (v : Vec T) (p : Nat) : Vec T :=
  ⟨(shiftLeftSlots v.buf p (v.size - p - 1)).set (v.size - 1) none, v.size - 1⟩

/-- operator=(const Vector&) body for this != &rhs: when rhs.size_ exceeds
Capacity(), build Vector(rhs) and Swap it in; otherwise copy-assign the
overlapping prefix, then destroy the surplus tail or copy-construct the
missing tail. -/
def assignCopy (dst rhs : Vec T) : Vec T :=
  if dst.capacity < rhs.size then vecCopy rhs
  else
    let b1 := copySlots rhs.buf 0 dst.buf 0 (min rhs.size dst.size)
    if rhs.size < dst.size then
      ⟨destroyRange b1 rhs.size (dst.size - rhs.size), rhs.size⟩
    else
      ⟨copySlots rhs.buf dst.size b1 dst.size (rhs.size - dst.size), rhs.size⟩

/-- operator=(const Vector&) with the self-assignment guard (self is the
result of the this != &rhs test being false).  Also returns the number of
element constructions and destructions the call performs: the temporary
path copy-constructs rhs.size_ elements and destroys the dst.size_ old
elements with the temporary; the in-place path destroys the surplus tail
when rhs is shorter or copy-constructs the missing tail when rhs is
longer. -/
def opAssignCopy (self : Bool) (dst rhs : Vec T) : Vec T × Nat × Nat :=
  if self then (dst, 0, 0)
  else if dst.capacity < rhs.size then (assignCopy dst rhs, rhs.size, dst.size)
  else if rhs.size < dst.size then (assignCopy dst rhs, 0, dst.size - rhs.size)
  else (assignCopy dst rhs, rhs.size - dst.size, 0)

/-- operator=(Vector&&) with the self-assignment guard: Swap with rhs when
this != &rhs, nothing otherwise.  Returns ((dst-after, rhs-after),
constructions, destructions). -/
def opAssignMove (self : Bool) (dst rhs : Vec T) : (Vec T × Vec T) × Nat × Nat :=
  if self then ((dst, rhs), 0, 0) else ((rhs, dst), 0, 0)

/-- The return of a member call in the model: a void member yields unitRet,
a member returning a reference to the element at index i yields refRet i. -/
inductive RetVal where
  | unitRet
  | refRet (idx : Nat)
deriving DecidableEq, Repr

/-- void PushBack(const T&) / void PushBack(T&&): the member is void, so
the call yields no reference. -/
def pushBackRet (_v : Vec T) (_x : T) : RetVal := RetVal.unitRet

/-- T& EmplaceBack(Args&&...): returns *Emplace(end(), ...), a reference to
the element at the index Emplace reports. -/
def emplaceBackRet (v : Vec T) (x : T) : RetVal := RetVal.refRet (emplaceBack v x).2

/-- Reserve with a fallible element copy (the copy arm of
MoveIfItsPossible).  On success, the new state.  When the copy of some
element throws, uninitialized_copy_n destroys what it constructed, the
new_data destructor releases the fresh buffer and the exception leaves
Reserve: the error value is (the untouched vector, the fresh buffer
contents at the moment it is released). -/
def reserveE (ok : T → Bool) (v : Vec T) (n : Nat) :
    Except (Vec T × List (Option T)) (Vec T) :=
  if n ≤ v.capacity then .ok v
  else
    let r := uninitCopyN ok v.buf 0 (List.replicate n (none : Option T)) 0 v.size
    if r.2 then .ok ⟨r.1, v.size⟩ else .error (v, r.1)

/-- Vector(const Vector&) with a fallible element copy: on failure the
error value is the fresh buffer contents at the moment its RawMemory is
released. -/
def vecCopyE (ok : T → Bool) (v : Vec T) : Except (List (Option T)) (Vec T) :=
  let r := uninitCopyN ok v.buf 0 (List.replicate v.size (none : Option T)) 0 v.size
  if r.2 then .ok ⟨r.1, v.size⟩ else .error r.1

/-- operator=(const Vector&), this != &rhs, with a fallible element copy.
The temporary path runs Vector rhs_copy(rhs) and swaps only on success; on
failure the error value is (dst unchanged, the temporary buffer at
release).  The in-place path copy-assigns the prefix (assignment is not
modelled as fallible) and then copy-constructs the missing tail; if that
construction throws, size_ has not been updated and no buffer is released,
so the error value is (the state left behind, []). -/
def assignCopyE (ok : T → Bool) (dst rhs : Vec T) :
    Except (Vec T × List (Option T)) (Vec T) :=
  if dst.capacity < rhs.size then
    match vecCopyE ok rhs with
    | .ok c => .ok c
    | .error leaked => .error (dst, leaked)
  else
    let b1 := copySlots rhs.buf 0 dst.buf 0 (min rhs.size dst.size)
    if rhs.size < dst.size then
      .ok ⟨destroyRange b1 rhs.size (dst.size - rhs.size), rhs.size⟩
    else
      let r := uninitCopyN ok rhs.buf dst.size b1 dst.size (rhs.size - dst.size)
      if r.2 then .ok ⟨r.1, rhs.size⟩ else .error (⟨r.1, dst.size⟩, [])

/-- Which phase of EmplaceWithRelocation an exception escaped from. -/
inductive RelocPhase where
  | newElem
  | movePre
  | moveSuf
deriving DecidableEq, Repr

/-- What is observable when EmplaceWithRelocation fails: the phase, the
slot indices of the new buffer destroyed by the catch handler, the new
buffer contents at the moment its RawMemory is released, and the vector
after the call. -/
structure RelocFail (T : Type) where
  phase : RelocPhase
  catchDestroyed : List Nat
  bufAtDealloc : List (Option T)
  vecAfter : Vec T
deriving DecidableEq, Repr

/-- EmplaceWithRelocation with a fallible element copy.  The new element is
constructed first at index p of the fresh buffer; the prefix [0, p) is
transferred, on failure the catch destroys new_data[p] and rethrows; the
suffix [p, size_) is transferred to [p+1, size_+1), on failure the catch
destroys new_data[0..p] and rethrows; only after both transfers succeed
are the old elements destroyed and the buffers swapped. -/
def emplaceWithRelocationE (ok : T → Bool) (v : Vec T) (p : Nat) (x : T) :
    Except (RelocFail T) (Vec T × Nat) :=
  let newCap := if v.size = 0 then 1 else v.size * 2
  let nd0 := List.replicate newCap (none : Option T)
  if ok x = false then .error ⟨RelocPhase.newElem, [], nd0, v⟩
  else
    let nd1 := nd0.set p (some x)
    let r1 := uninitCopyN ok v.buf 0 nd1 0 p
    if r1.2 = false then .error ⟨RelocPhase.movePre, [p], r1.1.set p none, v⟩
    else
      let r2 := uninitCopyN ok v.buf p r1.1 (p + 1) (v.size - p)
      if r2.2 = false then
        .error ⟨RelocPhase.moveSuf, List.range (p + 1), destroyRange r2.1 0 (p + 1), v⟩
      else .ok (⟨r2.1, v.size + 1⟩, p)

/-- The class invariant: size_ never exceeds the allocated capacity, and a
slot holds a constructed element exactly when its index is below size_. -/
def WF (v : Vec T) : Prop :=
  v.size ≤ v.buf.length ∧ ∀ i, i < v.buf.length → ((getSlot v.buf i).isSome ↔ i < v.size)

instance (v : Vec T) : Decidable (WF v) := by
  unfold WF getSlot
  infer_instance

/-- The states reachable by finite sequences of public operations (with
their documented preconditions) from the public constructors; d is the
value-constructed element of T. -/
inductive Reachable (d : T) : Vec T → Prop where
  | nil : Reachable d vecNil
  | sized (n : Nat) : Reachable d (vecSized d n)
  | copyCtor {v : Vec T} : Reachable d v → Reachable d (vecCopy v)
  | reserve {v : Vec T} (n : Nat) : Reachable d v → Reachable d (reserve v n)
  | resize {v : Vec T} (n : Nat) : Reachable d v → Reachable d (resize d v n)
  | push {v : Vec T} (x : T) : Reachable d v → Reachable d (pushBack v x)
  | pop {v : Vec T} : Reachable d v → 0 < v.size → Reachable d (popBack v)
  | emp {v : Vec T} (p : Nat) (x : T) : Reachable d v → p ≤ v.size →
      Reachable d (emplace v p x)
  | del {v : Vec T} (p : Nat) : Reachable d v → p < v.size → Reachable d (erase v p)
  | assign {v w : Vec T} : Reachable d v → Reachable d w → Reachable d (assignCopy v w)
  | mvTarget {v : Vec T} : Reachable d v → Reachable d (vecMove v).1
  | mvSource {v : Vec T} : Reachable d v → Reachable d (vecMove v).2
  | swapA {a b : Vec T} : Reachable d a → Reachable d b → Reachable d (swapVec a b).1
  | swapB {a b : Vec T} : Reachable d a → Reachable d b → Reachable d (swapVec a b).2
  | mvAssignA {a b : Vec T} : Reachable d a → Reachable d b →
      Reachable d (opAssignMove false a b).1.1
  | mvAssignB {a b : Vec T} : Reachable d a → Reachable d b →
      Reachable d (opAssignMove false a b).1.2

/-! ### Basic slot lemmas -/

theorem getSlot_nil (i : Nat) : getSlot ([] : List (Option T)) i = none := by
  cases i <;> rfl

theorem getSlot_of_ge {l : List (Option T)} {i : Nat} (h : l.length ≤ i) :
    getSlot l i = none := by
  unfold getSlot
  rw [List.getD_eq_getElem?_getD, List.getElem?_eq_none h]
  rfl

theorem getSlot_set (l : List (Option T)) (i j : Nat) (a : Option T) :
    getSlot (l.set i a) j = if i = j ∧ i < l.length then a else getSlot l j := by
  unfold getSlot
  rw [List.getD_eq_getElem?_getD, List.getD_eq_getElem?_getD, List.getElem?_set]
  by_cases hij : i = j
  · subst hij
    by_cases hi : i < l.length
    · simp [hi]
    · simp [hi, List.getElem?_eq_none (Nat.le_of_not_lt hi)]
  · simp [hij]

theorem getSlot_replicate (n : Nat) (i : Nat) :
    getSlot (List.replicate n (none : Option T)) i = none := by
  unfold getSlot
  rw [List.getD_eq_getElem?_getD, List.getElem?_replicate]
  by_cases h : i < n <;> simp [h]

theorem eq_none_of_mem_of_getSlot {l : List (Option T)}
    (h : ∀ i, i < l.length → getSlot l i = none) : ∀ s ∈ l, s = none := by
  intro s hs
  rcases List.mem_iff_getElem.mp hs with ⟨n, hn, rfl⟩
  have := h n hn
  unfold getSlot at this
  rwa [List.getD_eq_getElem?_getD, List.getElem?_eq_getElem hn] at this

/-! ### Length preservation -/

theorem copySlots_length (src : List (Option T)) (ss : Nat) (dst : List (Option T))
    (ds len : Nat) : (copySlots src ss dst ds len).length = dst.length := by
  induction len generalizing ss dst ds with
  | zero => rfl
  | succ l ih => simp [copySlots, ih]

theorem destroyRange_length (buf : List (Option T)) (s len : Nat) :
    (destroyRange buf s len).length = buf.length := by
  induction len generalizing s buf with
  | zero => rfl
  | succ l ih => simp [destroyRange, ih]

theorem valueConstructRange_length (buf : List (Option T)) (d : T) (s len : Nat) :
    (valueConstructRange buf d s len).length = buf.length := by
  induction len generalizing s buf with
  | zero => rfl
  | succ l ih => simp [valueConstructRange, ih]

theorem shiftRightSlots_length (buf : List (Option T)) (first len : Nat) :
    (shiftRightSlots buf first len).length = buf.length := by
  induction len generalizing buf with
  | zero => rfl
  | succ l ih => simp [shiftRightSlots, ih]

theorem shiftLeftSlots_length (buf : List (Option T)) (s len : Nat) :
    (shiftLeftSlots buf s len).length = buf.length := by
  induction len generalizing s buf with
  | zero => rfl
  | succ l ih => simp [shiftLeftSlots, ih]

theorem uninitCopyN_length (ok : T → Bool) (src : List (Option T)) (ss : Nat)
    (dst : List (Option T)) (ds len : Nat) :
    ((uninitCopyN ok src ss dst ds len).1).length = dst.length := by
  induction len generalizing ss dst ds with
  | zero => rfl
  | succ l ih =>
    rw [uninitCopyN]
    by_cases hc : (getSlot src ss).all ok
    · simp only [hc, if_true]
      by_cases hr : (uninitCopyN ok src (ss + 1) (dst.set ds (getSlot src ss)) (ds + 1) l).2
      · simpa [hr] using ih (ss + 1) (dst.set ds (getSlot src ss)) (ds + 1)
      · simpa [hr] using ih (ss + 1) (dst.set ds (getSlot src ss)) (ds + 1)
    · simp [hc]

/-! ### Slot characterizations of the loop embeddings -/

theorem copySlots_getSlot_outside (src : List (Option T)) (ss : Nat)
    (dst : List (Option T)) (ds len j : Nat) (h : j < ds ∨ ds + len ≤ j) :
    getSlot (copySlots src ss dst ds len) j = getSlot dst j := by
  induction len generalizing ss dst ds with
  | zero => rfl
  | succ l ih =>
    have hj : ¬(ds = j ∧ ds < dst.length) := by omega
    rw [copySlots, ih _ _ _ (by omega), getSlot_set]
    simp [hj]

theorem copySlots_getSlot_inside (src : List (Option T)) (ss : Nat)
    (dst : List (Option T)) (ds len j : Nat) (h1 : ds ≤ j) (h2 : j < ds + len)
    (h3 : j < dst.length) :
    getSlot (copySlots src ss dst ds len) j = getSlot src (ss + (j - ds)) := by
  induction len generalizing ss dst ds with
  | zero => omega
  | succ l ih =>
    rcases Nat.eq_or_lt_of_le h1 with he | hlt
    · have hc : ds = j ∧ ds < dst.length := ⟨he, by omega⟩
      rw [copySlots, copySlots_getSlot_outside _ _ _ _ _ _ (Or.inl (by omega)),
        getSlot_set, if_pos hc, ← he]
      simp
    · rw [copySlots, ih (ss + 1) _ (ds + 1) (by omega) (by omega) (by simpa using h3)]
      congr 1
      omega

theorem destroyRange_getSlot_outside (buf : List (Option T)) (s len j : Nat)
    (h : j < s ∨ s + len ≤ j) :
    getSlot (destroyRange buf s len) j = getSlot buf j := by
  induction len generalizing s buf with
  | zero => rfl
  | succ l ih =>
    have hj : ¬(s = j ∧ s < buf.length) := by omega
    rw [destroyRange, ih _ _ (by omega), getSlot_set]
    simp [hj]

theorem destroyRange_getSlot_inside (buf : List (Option T)) (s len j : Nat)
    (h1 : s ≤ j) (h2 : j < s + len) :
    getSlot (destroyRange buf s len) j = none := by
  induction len generalizing s buf with
  | zero => omega
  | succ l ih =>
    rcases Nat.eq_or_lt_of_le h1 with he | hlt
    · rw [destroyRange, destroyRange_getSlot_outside _ _ _ _ (Or.inl (by omega)),
        getSlot_set]
      by_cases hb : s < buf.length
      · simp [← he, hb]
      · have : ¬(s = j ∧ s < buf.length) := by omega
        simp only [this, if_false]
        exact getSlot_of_ge (by omega)
    · rw [destroyRange]
      exact ih _ _ (by omega) (by omega)

theorem valueConstructRange_getSlot_outside (buf : List (Option T)) (d : T)
    (s len j : Nat) (h : j < s ∨ s + len ≤ j) :
    getSlot (valueConstructRange buf d s len) j = getSlot buf j := by
  induction len generalizing s buf with
  | zero => rfl
  | succ l ih =>
    have hj : ¬(s = j ∧ s < buf.length) := by omega
    rw [valueConstructRange, ih _ _ (by omega), getSlot_set]
    simp [hj]

theorem valueConstructRange_getSlot_inside (buf : List (Option T)) (d : T)
    (s len j : Nat) (h1 : s ≤ j) (h2 : j < s + len) (h3 : j < buf.length) :
    getSlot (valueConstructRange buf d s len) j = some d := by
  induction len generalizing s buf with
  | zero => omega
  | succ l ih =>
    rcases Nat.eq_or_lt_of_le h1 with he | hlt
    · have hc : s = j ∧ s < buf.length := ⟨he, by omega⟩
      rw [valueConstructRange,
        valueConstructRange_getSlot_outside _ _ _ _ _ (Or.inl (by omega)), getSlot_set,
        if_pos hc]
    · rw [valueConstructRange]
      exact ih _ _ (by omega) (by omega) (by simpa using h3)

theorem shiftRightSlots_getSlot (buf : List (Option T)) (first len j : Nat)
    (h : first + len < buf.length) :
    getSlot (shiftRightSlots buf first len) j =
      if first + 1 ≤ j ∧ j ≤ first + len then getSlot buf (j - 1) else getSlot buf j := by
  induction len generalizing buf with
  | zero =>
    simp only [shiftRightSlots]
    rw [if_neg (by omega)]
  | succ l ih =>
    rw [shiftRightSlots,
      ih (buf.set (first + l + 1) (getSlot buf (first + l))) (by simpa using by omega)]
    by_cases h1 : first + 1 ≤ j ∧ j ≤ first + l
    · rw [if_pos h1, if_pos (by omega), getSlot_set]
      have : ¬(first + l + 1 = j - 1 ∧ first + l + 1 < buf.length) := by omega
      simp [this]
    · by_cases h2 : j = first + l + 1
      · rw [if_neg (by omega), if_pos (by omega), getSlot_set]
        have hc : first + l + 1 = j ∧ first + l + 1 < buf.length := ⟨by omega, h⟩
        rw [if_pos hc, h2]
        simp
      · rw [if_neg (by omega), if_neg (by omega), getSlot_set]
        have : ¬(first + l + 1 = j ∧ first + l + 1 < buf.length) := by omega
        simp [this]

theorem shiftLeftSlots_getSlot (buf : List (Option T)) (s len j : Nat)
    (h : s + len ≤ buf.length) :
    getSlot (shiftLeftSlots buf s len) j =
      if s ≤ j ∧ j < s + len then getSlot buf (j + 1) else getSlot buf j := by
  induction len generalizing s buf with
  | zero =>
    simp only [shiftLeftSlots]
    rw [if_neg (by omega)]
  | succ l ih =>
    rw [shiftLeftSlots, ih (buf.set s (getSlot buf (s + 1))) (s + 1) (by simpa using by omega)]
    by_cases h1 : s + 1 ≤ j ∧ j < s + 1 + l
    · rw [if_pos h1, if_pos (by omega), getSlot_set]
      have : ¬(s = j + 1 ∧ s < buf.length) := by omega
      simp [this]
    · by_cases h2 : j = s
      · rw [if_neg (by omega), if_pos (by omega), getSlot_set]
        have hc : s = j ∧ s < buf.length := ⟨by omega, by omega⟩
        rw [if_pos hc, h2]
      · rw [if_neg (by omega), if_neg (by omega), getSlot_set]
        have : ¬(s = j ∧ s < buf.length) := by omega
        simp [this]

/-! ### uninitCopyN characterizations -/

theorem uninitCopyN_succ_eq (ok : T → Bool) (src : List (Option T)) (ss : Nat)
    (dst : List (Option T)) (ds len : Nat)
    (h : (uninitCopyN ok src ss dst ds len).2 = true) :
    (uninitCopyN ok src ss dst ds len).1 = copySlots src ss dst ds len := by
  induction len generalizing ss dst ds with
  | zero => rfl
  | succ l ih =>
    rw [uninitCopyN] at h ⊢
    by_cases hc : (getSlot src ss).all ok
    · simp only [hc, if_true] at h ⊢
      by_cases hr : (uninitCopyN ok src (ss + 1) (dst.set ds (getSlot src ss)) (ds + 1) l).2
      · simp only [hr, if_true]
        exact ih _ _ _ hr
      · simp [hr] at h
    · simp [hc] at h

theorem uninitCopyN_succ_iff (ok : T → Bool) (src : List (Option T)) (ss : Nat)
    (dst : List (Option T)) (ds len : Nat) :
    (uninitCopyN ok src ss dst ds len).2 = true ↔
      ∀ j, j < len → (getSlot src (ss + j)).all ok = true := by
  induction len generalizing ss dst ds with
  | zero => simp [uninitCopyN]
  | succ l ih =>
    rw [uninitCopyN]
    by_cases hc : (getSlot src ss).all ok
    · simp only [hc, if_true]
      by_cases hr : (uninitCopyN ok src (ss + 1) (dst.set ds (getSlot src ss)) (ds + 1) l).2
      · simp only [hr, if_true]
        constructor
        · intro _ j hj
          rcases Nat.eq_zero_or_pos j with h0 | h0
          · simpa [h0] using hc
          · have := (ih (ss + 1) (dst.set ds (getSlot src ss)) (ds + 1)).mp hr (j - 1)
              (by omega)
            have he : ss + 1 + (j - 1) = ss + j := by omega
            rwa [he] at this
        · intro _
          trivial
      · simp only [hr, if_false]
        constructor
        · intro hfalse
          exact absurd hfalse (by simp)
        · intro hall
          exfalso
          apply hr
          apply (ih (ss + 1) (dst.set ds (getSlot src ss)) (ds + 1)).mpr
          intro j hj
          have := hall (j + 1) (by omega)
          have he : ss + (j + 1) = ss + 1 + j := by omega
          rwa [he] at this
    · simp only [hc, if_false]
      constructor
      · intro hfalse
        exact absurd hfalse (by simp)
      · intro hall
        exact absurd (by simpa using hall 0 (by omega)) hc

theorem uninitCopyN_fail_getSlot (ok : T → Bool) (src : List (Option T)) (ss : Nat)
    (dst : List (Option T)) (ds len : Nat)
    (h : (uninitCopyN ok src ss dst ds len).2 = false) (j : Nat) :
    getSlot (uninitCopyN ok src ss dst ds len).1 j = getSlot dst j ∨
      getSlot (uninitCopyN ok src ss dst ds len).1 j = none := by
  induction len generalizing ss dst ds with
  | zero => simp [uninitCopyN] at h
  | succ l ih =>
    rw [uninitCopyN] at h ⊢
    by_cases hc : (getSlot src ss).all ok
    · simp only [hc, if_true] at h ⊢
      by_cases hr : (uninitCopyN ok src (ss + 1) (dst.set ds (getSlot src ss)) (ds + 1) l).2
      · simp [hr] at h
      · rw [if_neg hr]
        dsimp only
        rw [getSlot_set]
        by_cases hd : ds = j ∧
            ds < (uninitCopyN ok src (ss + 1) (dst.set ds (getSlot src ss)) (ds + 1) l).1.length
        · right
          rw [if_pos hd]
        · rw [if_neg hd]
          rcases ih (ss + 1) (dst.set ds (getSlot src ss)) (ds + 1)
              (by simpa using hr) with hsame | hnone
          · rw [hsame, getSlot_set]
            by_cases hdj : ds = j
            · right
              rw [uninitCopyN_length, List.length_set] at hd
              have hge : dst.length ≤ ds := by
                rcases Nat.lt_or_ge ds dst.length with hlt | hge
                · exact absurd ⟨hdj, hlt⟩ hd
                · exact hge
              have : ¬(ds = j ∧ ds < dst.length) := by omega
              rw [if_neg this, ← hdj]
              exact getSlot_of_ge hge
            · left
              rw [if_neg (by simp [hdj])]
          · right
            exact hnone
    · simp only [hc, if_false]
      left
      rfl

/-! ### Invariant helpers -/

theorem slotOf_eq (v : Vec T) (i : Nat) : slotOf v i = getSlot v.buf i := rfl

theorem wf_slot_isSome {v : Vec T} (hwf : WF v) {i : Nat} (hi : i < v.size) :
    (slotOf v i).isSome = true :=
  (hwf.2 i (Nat.lt_of_lt_of_le hi hwf.1)).mpr hi

theorem wf_slot_high {v : Vec T} (hwf : WF v) {i : Nat} (hi : v.size ≤ i) :
    slotOf v i = none := by
  by_cases hl : i < v.buf.length
  · have := (hwf.2 i hl).not
    simp only [Nat.not_lt] at this
    have h2 := this.mpr hi
    exact Option.not_isSome_iff_eq_none.mp (by simpa using h2)
  · exact getSlot_of_ge (by omega)

theorem wf_nil : WF (vecNil : Vec T) := by
  constructor
  · simp [vecNil]
  · intro i hi
    simp [vecNil] at hi

theorem wf_sized (d : T) (n : Nat) : WF (vecSized d n) := by
  constructor
  · simp [vecSized, Vec.capacity, valueConstructRange_length]
  · intro i hi
    simp only [vecSized, valueConstructRange_length, List.length_replicate] at hi
    simp only [vecSized]
    rw [valueConstructRange_getSlot_inside _ _ _ _ _ (by omega) (by omega) (by simpa)]
    simp [hi]

theorem wf_copy {v : Vec T} (hwf : WF v) : WF (vecCopy v) := by
  constructor
  · simp [vecCopy, copySlots_length]
  · intro i hi
    simp only [vecCopy, copySlots_length, List.length_replicate] at hi
    simp only [vecCopy]
    rw [copySlots_getSlot_inside _ _ _ _ _ _ (by omega) (by omega) (by simpa)]
    simp only [Nat.zero_add]
    have : (getSlot v.buf i).isSome = true := wf_slot_isSome hwf hi
    simp [this, hi]

/-! ### Reserve -/

theorem reserve_of_le {v : Vec T} {n : Nat} (h : n ≤ v.capacity) : reserve v n = v := by
  simp [reserve, h]

theorem reserve_capacity {v : Vec T} {n : Nat} (h : v.capacity < n) :
    (reserve v n).capacity = n := by
  unfold reserve
  rw [if_neg (Nat.not_le.mpr h)]
  simp [Vec.capacity, copySlots_length]

theorem reserve_size (v : Vec T) (n : Nat) : (reserve v n).size = v.size := by
  unfold reserve
  split <;> rfl

theorem reserve_slot {v : Vec T} {n : Nat} (hwf : WF v) (h : v.capacity < n) {i : Nat}
    (hi : i < v.size) : slotOf (reserve v n) i = slotOf v i := by
  have hin : i < n := by
    have := hwf.1
    simp only [Vec.capacity] at h
    omega
  simp only [reserve, Nat.not_le.mpr h, if_false, slotOf]
  rw [copySlots_getSlot_inside _ _ _ _ _ _ (by omega) (by omega) (by simpa)]
  simp

theorem reserve_slot_high {v : Vec T} {n : Nat} (h : v.capacity < n) {i : Nat}
    (hi : v.size ≤ i) : slotOf (reserve v n) i = none := by
  simp only [reserve, Nat.not_le.mpr h, if_false, slotOf]
  rw [copySlots_getSlot_outside _ _ _ _ _ _ (by omega)]
  exact getSlot_replicate n i

theorem reserve_capacity_ge (v : Vec T) (n : Nat) :
    v.capacity ≤ (reserve v n).capacity := by
  by_cases h : n ≤ v.capacity
  · rw [reserve_of_le h]
  · rw [reserve_capacity (by omega)]
    omega

theorem reserve_capacity_ge_n {v : Vec T} {n : Nat} : n ≤ (reserve v n).capacity := by
  by_cases h : n ≤ v.capacity
  · rw [reserve_of_le h]
    exact h
  · rw [reserve_capacity (by omega)]

theorem wf_reserve {v : Vec T} (hwf : WF v) (n : Nat) : WF (reserve v n) := by
  by_cases h : n ≤ v.capacity
  · rwa [reserve_of_le h]
  · have h2 : v.capacity < n := by omega
    constructor
    · rw [reserve_size]
      have : (reserve v n).capacity = n := reserve_capacity h2
      simp only [Vec.capacity] at this
      rw [this]
      have := hwf.1
      simp only [Vec.capacity] at h2
      omega
    · intro i hi
      rw [reserve_size]
      by_cases hsz : i < v.size
      · have hs : slotOf (reserve v n) i = slotOf v i := reserve_slot hwf h2 hsz
        simp only [slotOf_eq] at hs
        rw [hs]
        have h3 : (getSlot v.buf i).isSome = true := wf_slot_isSome hwf hsz
        simp [h3, hsz]
      · have hs : slotOf (reserve v n) i = none := reserve_slot_high h2 (by omega)
        simp only [slotOf_eq] at hs
        rw [hs]
        simp [hsz]

/-! ### Resize -/

theorem resize_size (d : T) (v : Vec T) (n : Nat) : (resize d v n).size = n := by
  unfold resize
  split <;> rfl

theorem resize_capacity_ge (d : T) (v : Vec T) (n : Nat) :
    v.capacity ≤ (resize d v n).capacity := by
  unfold resize
  split
  · simp [Vec.capacity, destroyRange_length]
  · simp only [Vec.capacity, valueConstructRange_length]
    exact reserve_capacity_ge v n

theorem wf_resize {v : Vec T} (hwf : WF v) (d : T) (n : Nat) : WF (resize d v n) := by
  unfold resize
  by_cases hlt : n < v.size
  · rw [if_pos hlt]
    constructor
    · simp only [destroyRange_length]
      have := hwf.1
      omega
    · intro i hi
      simp only [destroyRange_length] at hi
      by_cases h1 : i < n
      · rw [destroyRange_getSlot_outside _ _ _ _ (by omega)]
        have : (getSlot v.buf i).isSome = true := wf_slot_isSome hwf (by omega)
        simp [this, h1]
      · by_cases h2 : i < v.size
        · rw [destroyRange_getSlot_inside _ _ _ _ (by omega) (by omega)]
          simp [h1]
        · rw [destroyRange_getSlot_outside _ _ _ _ (by omega)]
          have : getSlot v.buf i = none := wf_slot_high hwf (by omega)
          simp [this, h1]
  · rw [if_neg hlt]
    have hge : v.size ≤ n := by omega
    have hwr : WF (reserve v n) := wf_reserve hwf n
    have hrs : (reserve v n).size = v.size := reserve_size v n
    have hrc : n ≤ (reserve v n).buf.length := reserve_capacity_ge_n
    constructor
    · simp only [valueConstructRange_length]
      omega
    · intro i hi
      simp only [valueConstructRange_length] at hi
      by_cases h1 : i < v.size
      · rw [valueConstructRange_getSlot_outside _ _ _ _ _ (by omega)]
        have : (getSlot (reserve v n).buf i).isSome = true :=
          wf_slot_isSome hwr (by omega)
        simp [this]
        omega
      · by_cases h2 : i < n
        · rw [valueConstructRange_getSlot_inside _ _ _ _ _ (by omega) (by omega)
            (by omega)]
          simp [h2]
        · rw [valueConstructRange_getSlot_outside _ _ _ _ _ (by omega)]
          have : getSlot (reserve v n).buf i = none := wf_slot_high hwr (by omega)
          simp [this, h2]

/-! ### Emplace -/

theorem emplaceWithRelocation_spec (v : Vec T) (p : Nat) (x : T) (hp : p ≤ v.size) :
    (emplaceWithRelocation v p x).size = v.size + 1 ∧
    (emplaceWithRelocation v p x).capacity = (if v.size = 0 then 1 else v.size * 2) ∧
    (∀ i, i < p → slotOf (emplaceWithRelocation v p x) i = slotOf v i) ∧
    slotOf (emplaceWithRelocation v p x) p = some x ∧
    (∀ i, p < i → i ≤ v.size →
      slotOf (emplaceWithRelocation v p x) i = slotOf v (i - 1)) ∧
    (∀ i, v.size < i → slotOf (emplaceWithRelocation v p x) i = none) := by
  unfold emplaceWithRelocation
  simp only [slotOf_eq, Vec.capacity]
  set m := (if v.size = 0 then 1 else v.size * 2) with hm
  have hm1 : v.size + 1 ≤ m := by rw [hm]; split <;> omega
  have hlen1 : ((List.replicate m (none : Option T)).set p (some x)).length = m := by
    simp
  refine ⟨by trivial, ?_, ?_, ?_, ?_, ?_⟩
  · rw [copySlots_length, copySlots_length, hlen1]
  · intro i hi
    rw [copySlots_getSlot_outside _ _ _ _ _ _ (by omega),
      copySlots_getSlot_inside _ _ _ _ _ _ (by omega) (by omega)
        (by rw [hlen1]; omega)]
    simp
  · rw [copySlots_getSlot_outside _ _ _ _ _ _ (by omega),
      copySlots_getSlot_outside _ _ _ _ _ _ (by omega), getSlot_set,
      if_pos ⟨rfl, by rw [List.length_replicate]; omega⟩]
  · intro i h1 h2
    rw [copySlots_getSlot_inside _ _ _ _ _ _ (by omega) (by omega)
        (by rw [copySlots_length, hlen1]; omega)]
    congr 1
    omega
  · intro i hi
    rw [copySlots_getSlot_outside _ _ _ _ _ _ (by omega),
      copySlots_getSlot_outside _ _ _ _ _ _ (by omega), getSlot_set,
      if_neg (by omega), getSlot_replicate]

theorem emplaceWithoutRelocation_spec (v : Vec T) (p : Nat) (x : T) (hwf : WF v)
    (hp : p ≤ v.size) (hlt : v.size < v.capacity) :
    (emplaceWithoutRelocation v p x).size = v.size + 1 ∧
    (emplaceWithoutRelocation v p x).capacity = v.capacity ∧
    (∀ i, i < p → slotOf (emplaceWithoutRelocation v p x) i = slotOf v i) ∧
    slotOf (emplaceWithoutRelocation v p x) p = some x ∧
    (∀ i, p < i → i ≤ v.size →
      slotOf (emplaceWithoutRelocation v p x) i = slotOf v (i - 1)) ∧
    (∀ i, v.size < i → slotOf (emplaceWithoutRelocation v p x) i = none) := by
  have hlen : v.size < v.buf.length := hlt
  unfold emplaceWithoutRelocation
  by_cases hpe : p = v.size
  · rw [if_pos hpe]
    simp only [slotOf_eq, Vec.capacity]
    refine ⟨by trivial, by simp, ?_, ?_, ?_, ?_⟩
    · intro i hi
      rw [getSlot_set, if_neg (by omega)]
    · rw [getSlot_set, if_pos ⟨hpe.symm, by omega⟩]
    · intro i h1 h2
      omega
    · intro i hi
      rw [getSlot_set, if_neg (by omega)]
      exact wf_slot_high hwf (by omega)
  · rw [if_neg hpe]
    have hps : p < v.size := by omega
    simp only [slotOf_eq, Vec.capacity]
    have hb1len : (v.buf.set v.size (getSlot v.buf (v.size - 1))).length = v.buf.length := by
      simp
    have hsh : p + (v.size - 1 - p) < (v.buf.set v.size (getSlot v.buf (v.size - 1))).length := by
      rw [hb1len]
      omega
    refine ⟨by trivial, ?_, ?_, ?_, ?_, ?_⟩
    · simp [shiftRightSlots_length]
    · intro i hi
      rw [getSlot_set, if_neg (by omega), shiftRightSlots_getSlot _ _ _ _ hsh,
        if_neg (by omega), getSlot_set, if_neg (by omega)]
    · rw [getSlot_set,
        if_pos ⟨rfl, by rw [shiftRightSlots_length, hb1len]; omega⟩]
    · intro i h1 h2
      rw [getSlot_set, if_neg (by omega), shiftRightSlots_getSlot _ _ _ _ hsh]
      by_cases h3 : i ≤ v.size - 1
      · rw [if_pos ⟨by omega, by omega⟩, getSlot_set, if_neg (by omega)]
      · have hieq : i = v.size := by omega
        rw [if_neg (by omega), getSlot_set, if_pos ⟨hieq.symm, hlen⟩, hieq]
    · intro i hi
      rw [getSlot_set, if_neg (by omega), shiftRightSlots_getSlot _ _ _ _ hsh,
        if_neg (by omega), getSlot_set, if_neg (by omega)]
      exact wf_slot_high hwf (by omega)

theorem emplace_spec (v : Vec T) (p : Nat) (x : T) (hwf : WF v) (hp : p ≤ v.size) :
    (emplace v p x).size = v.size + 1 ∧
    v.size + 1 ≤ (emplace v p x).capacity ∧
    (∀ i, i < p → slotOf (emplace v p x) i = slotOf v i) ∧
    slotOf (emplace v p x) p = some x ∧
    (∀ i, p < i → i ≤ v.size → slotOf (emplace v p x) i = slotOf v (i - 1)) ∧
    (∀ i, v.size < i → slotOf (emplace v p x) i = none) := by
  unfold emplace
  by_cases hsz : v.size = v.capacity
  · rw [if_pos hsz]
    obtain ⟨a, b, c, d, e, f⟩ := emplaceWithRelocation_spec v p x hp
    exact ⟨a, by rw [b]; split <;> omega, c, d, e, f⟩
  · rw [if_neg hsz]
    have hlt : v.size < v.capacity := by
      have h1 := hwf.1
      have h2 : v.capacity = v.buf.length := rfl
      omega
    obtain ⟨a, b, c, d, e, f⟩ := emplaceWithoutRelocation_spec v p x hwf hp hlt
    exact ⟨a, by omega, c, d, e, f⟩

theorem wf_emplace {v : Vec T} (hwf : WF v) {p : Nat} (hp : p ≤ v.size) (x : T) :
    WF (emplace v p x) := by
  obtain ⟨hs, hc, hlo, hat, hgt, hhigh⟩ := emplace_spec v p x hwf hp
  constructor
  · rw [hs]
    exact hc
  · intro i hi
    rw [← slotOf_eq, hs]
    by_cases h1 : i < p
    · rw [hlo i h1]
      have hsome := wf_slot_isSome hwf (show i < v.size from by omega)
      simp [hsome]
      omega
    · by_cases h2 : i = p
      · subst h2
        rw [hat]
        simp
        omega
      · by_cases h3 : i ≤ v.size
        · rw [hgt i (by omega) h3]
          have hsome := wf_slot_isSome hwf (show i - 1 < v.size from by omega)
          simp [hsome]
          omega
        · rw [hhigh i (by omega)]
          simp
          omega

/-! ### Erase -/

theorem erase_spec (v : Vec T) (p : Nat) (hwf : WF v) (hp : p < v.size) :
    (erase v p).size = v.size - 1 ∧
    (erase v p).capacity = v.capacity ∧
    (∀ i, i < p → slotOf (erase v p) i = slotOf v i) ∧
    (∀ i, p ≤ i → i < v.size - 1 → slotOf (erase v p) i = slotOf v (i + 1)) ∧
    (∀ i, v.size - 1 ≤ i → slotOf (erase v p) i = none) := by
  have hlen : v.size ≤ v.buf.length := hwf.1
  unfold erase
  simp only [slotOf_eq, Vec.capacity]
  have hsh : p + (v.size - p - 1) ≤ v.buf.length := by omega
  refine ⟨by trivial, ?_, ?_, ?_, ?_⟩
  · simp [shiftLeftSlots_length]
  · intro i hi
    rw [getSlot_set, if_neg (by omega), shiftLeftSlots_getSlot _ _ _ _ hsh,
      if_neg (by omega)]
  · intro i h1 h2
    rw [getSlot_set, if_neg (by omega), shiftLeftSlots_getSlot _ _ _ _ hsh,
      if_pos ⟨h1, by omega⟩]
  · intro i hi
    by_cases h1 : i = v.size - 1
    · subst h1
      rw [getSlot_set]
      by_cases h2 : v.size - 1 < (shiftLeftSlots v.buf p (v.size - p - 1)).length
      · rw [if_pos ⟨rfl, h2⟩]
      · rw [shiftLeftSlots_length] at h2
        omega
    · rw [getSlot_set, if_neg (by omega), shiftLeftSlots_getSlot _ _ _ _ hsh,
        if_neg (by omega)]
      exact wf_slot_high hwf (by omega)

theorem wf_erase {v : Vec T} (hwf : WF v) {p : Nat} (hp : p < v.size) : WF (erase v p) := by
  obtain ⟨hs, hc, hlo, hmid, hhigh⟩ := erase_spec v p hwf hp
  constructor
  · rw [hs]
    have h1 : (erase v p).capacity = v.capacity := hc
    have := hwf.1
    simp only [Vec.capacity] at h1
    omega
  · intro i hi
    rw [← slotOf_eq, hs]
    by_cases h1 : i < p
    · rw [hlo i h1]
      have hsome := wf_slot_isSome hwf (show i < v.size from by omega)
      simp [hsome]
      omega
    · by_cases h2 : i < v.size - 1
      · rw [hmid i (by omega) h2]
        have hsome := wf_slot_isSome hwf (show i + 1 < v.size from by omega)
        simp [hsome]
        omega
      · rw [hhigh i (by omega)]
        simp
        omega

/-! ### PopBack and copy assignment -/

theorem wf_popBack {v : Vec T} (hwf : WF v) (h0 : 0 < v.size) : WF (popBack v) := by
  constructor
  · simp only [popBack, List.length_set]
    have := hwf.1
    omega
  · intro i hi
    simp only [popBack, List.length_set] at hi ⊢
    rw [getSlot_set]
    by_cases h1 : i = v.size - 1
    · subst h1
      rw [if_pos ⟨rfl, by have := hwf.1; omega⟩]
      simp
    · rw [if_neg (by omega)]
      by_cases h2 : i < v.size - 1
      · have hsome := wf_slot_isSome hwf (show i < v.size from by omega)
        simp only [slotOf_eq] at hsome
        simp [hsome, h2]
      · have hnone : getSlot v.buf i = none := wf_slot_high hwf (by omega)
        simp [hnone, h2]

theorem wf_assignCopy {v w : Vec T} (hv : WF v) (hw : WF w) : WF (assignCopy v w) := by
  unfold assignCopy
  by_cases hbig : v.capacity < w.size
  · rw [if_pos hbig]
    exact wf_copy hw
  · rw [if_neg hbig]
    have hcap : w.size ≤ v.buf.length := by
      simp only [Vec.capacity] at hbig
      omega
    have hwlen : w.size ≤ w.buf.length := hw.1
    have hvlen : v.size ≤ v.buf.length := hv.1
    by_cases hsm : w.size < v.size
    · rw [if_pos hsm]
      constructor
      · simp only [destroyRange_length, copySlots_length]
        omega
      · intro i hi
        simp only [destroyRange_length, copySlots_length] at hi
        by_cases h1 : i < w.size
        · rw [destroyRange_getSlot_outside _ _ _ _ (by omega),
            copySlots_getSlot_inside _ _ _ _ _ _ (by omega) (by omega) (by omega)]
          have hsome := wf_slot_isSome hw (show i < w.size from h1)
          simp only [slotOf_eq] at hsome
          simp [hsome, h1]
        · by_cases h2 : i < v.size
          · rw [destroyRange_getSlot_inside _ _ _ _ (by omega) (by omega)]
            simp [h1]
          · rw [destroyRange_getSlot_outside _ _ _ _ (by omega),
              copySlots_getSlot_outside _ _ _ _ _ _ (by omega)]
            have hnone : getSlot v.buf i = none := wf_slot_high hv (by omega)
            simp [hnone, h1]
    · rw [if_neg hsm]
      constructor
      · simp only [copySlots_length]
        omega
      · intro i hi
        simp only [copySlots_length] at hi
        by_cases h1 : i < v.size
        · rw [copySlots_getSlot_outside _ _ _ _ _ _ (by omega),
            copySlots_getSlot_inside _ _ _ _ _ _ (by omega) (by omega) (by omega)]
          have hsome := wf_slot_isSome hw (show i < w.size from by omega)
          simp only [slotOf_eq] at hsome
          simp [hsome]
          omega
        · by_cases h2 : i < w.size
          · rw [copySlots_getSlot_inside _ _ _ _ _ _ (by omega) (by omega)
              (by rw [copySlots_length]; omega)]
            have heq : v.size + (i - v.size) = i := by omega
            rw [heq]
            have hsome := wf_slot_isSome hw (show i < w.size from h2)
            simp only [slotOf_eq] at hsome
            simp [hsome, h2]
          · rw [copySlots_getSlot_outside _ _ _ _ _ _ (by omega),
              copySlots_getSlot_outside _ _ _ _ _ _ (by omega)]
            have hnone : getSlot v.buf i = none := wf_slot_high hv (by omega)
            simp [hnone, h2]

/-! ### Live range and copy construction -/

theorem live_eq_of_slots {v w : Vec T} (hs : v.size = w.size)
    (h : ∀ i, i < v.size → slotOf v i = slotOf w i) : live v = live w := by
  unfold live
  rw [← hs]
  apply List.map_congr_left
  intro a ha
  exact h a (List.mem_range.mp ha)

theorem vecCopy_spec (v : Vec T) :
    (vecCopy v).size = v.size ∧ (vecCopy v).capacity = v.size ∧
    ∀ i, i < v.size → slotOf (vecCopy v) i = slotOf v i := by
  refine ⟨rfl, by simp [vecCopy, Vec.capacity, copySlots_length], ?_⟩
  intro i hi
  simp only [vecCopy, slotOf_eq]
  rw [copySlots_getSlot_inside _ _ _ _ _ _ (by omega) (by omega) (by simpa)]
  simp

theorem vecCopyE_spec (ok : T → Bool) (v : Vec T) :
    (∀ leaked, vecCopyE ok v = Except.error leaked → ∀ s ∈ leaked, s = none) ∧
    (∀ c, vecCopyE ok v = Except.ok c → c = vecCopy v) := by
  unfold vecCopyE
  by_cases h2 : (uninitCopyN ok v.buf 0 (List.replicate v.size (none : Option T)) 0 v.size).2
  · rw [if_pos h2]
    constructor
    · intro leaked hl
      simp at hl
    · intro c hc
      injection hc with h3
      rw [← h3]
      unfold vecCopy
      rw [uninitCopyN_succ_eq _ _ _ _ _ _ h2]
  · rw [if_neg h2]
    constructor
    · intro leaked hl
      injection hl with h3
      subst h3
      apply eq_none_of_mem_of_getSlot
      intro i _
      rcases uninitCopyN_fail_getSlot ok v.buf 0 (List.replicate v.size none) 0 v.size
          (by simpa using h2) i with hsame | hnone
      · rw [hsame, getSlot_replicate]
      · exact hnone
    · intro c hc
      simp at hc

/-! ### Capacity monotonicity of the single operations -/

theorem emplace_capacity_ge (v : Vec T) (p : Nat) (x : T) :
    v.capacity ≤ (emplace v p x).capacity := by
  have hcl : v.capacity = v.buf.length := rfl
  unfold emplace
  by_cases hsz : v.size = v.capacity
  · rw [if_pos hsz]
    unfold emplaceWithRelocation
    simp only [Vec.capacity]
    rw [copySlots_length, copySlots_length, List.length_set, List.length_replicate]
    split <;> omega
  · rw [if_neg hsz]
    unfold emplaceWithoutRelocation
    by_cases hpe : p = v.size
    · rw [if_pos hpe]
      simp [Vec.capacity]
    · rw [if_neg hpe]
      simp [Vec.capacity, shiftRightSlots_length]

theorem popBack_capacity (v : Vec T) : (popBack v).capacity = v.capacity := by
  simp [popBack, Vec.capacity]

theorem erase_capacity (v : Vec T) (p : Nat) : (erase v p).capacity = v.capacity := by
  simp [erase, Vec.capacity, shiftLeftSlots_length]

theorem assignCopy_capacity_ge (v w : Vec T) :
    v.capacity ≤ (assignCopy v w).capacity := by
  unfold assignCopy
  by_cases hbig : v.capacity < w.size
  · rw [if_pos hbig]
    have : (vecCopy w).capacity = w.size := (vecCopy_spec w).2.1
    omega
  · rw [if_neg hbig]
    by_cases hsm : w.size < v.size
    · rw [if_pos hsm]
      simp [Vec.capacity, destroyRange_length, copySlots_length]
    · rw [if_neg hsm]
      simp [Vec.capacity, copySlots_length]

/-! ### Rollback buffers are fully destroyed -/

theorem fail_set_none {ok : T → Bool} {src dst : List (Option T)} {ss ds len p : Nat}
    (hdst : ∀ i, i ≠ p → getSlot dst i = none)
    (hfail : (uninitCopyN ok src ss dst ds len).2 = false) :
    ∀ s ∈ (uninitCopyN ok src ss dst ds len).1.set p none, s = none := by
  apply eq_none_of_mem_of_getSlot
  intro i _
  rw [getSlot_set]
  by_cases hip : p = i ∧ p < (uninitCopyN ok src ss dst ds len).1.length
  · rw [if_pos hip]
  · rw [if_neg hip]
    rcases uninitCopyN_fail_getSlot ok src ss dst ds len hfail i with hsame | hnone
    · rw [hsame]
      by_cases hp2 : i = p
      · subst hp2
        have hge : (uninitCopyN ok src ss dst ds len).1.length ≤ i := by
          rcases Nat.lt_or_ge i ((uninitCopyN ok src ss dst ds len).1.length) with h | h
          · exact absurd ⟨rfl, h⟩ hip
          · exact h
        rw [uninitCopyN_length] at hge
        exact getSlot_of_ge hge
      · exact hdst i hp2
    · exact hnone

theorem fail_destroy_none {ok : T → Bool} {src dst : List (Option T)}
    {ss ds len p : Nat} (hdst : ∀ i, p < i → getSlot dst i = none)
    (hfail : (uninitCopyN ok src ss dst ds len).2 = false) :
    ∀ s ∈ destroyRange (uninitCopyN ok src ss dst ds len).1 0 (p + 1), s = none := by
  apply eq_none_of_mem_of_getSlot
  intro i _
  by_cases hip : i ≤ p
  · exact destroyRange_getSlot_inside _ _ _ _ (by omega) (by omega)
  · rw [destroyRange_getSlot_outside _ _ _ _ (by omega)]
    rcases uninitCopyN_fail_getSlot ok src ss dst ds len hfail i with hsame | hnone
    · rw [hsame]
      exact hdst i (by omega)
    · exact hnone

/-! ### Claim theorems -/

/-- C1: every state reachable by a finite sequence of public operations
(respecting the documented preconditions) from any public constructor
satisfies the class invariant: size <= capacity, and exactly the slots at
logical positions [0, size) hold constructed elements while [size, capacity)
are raw. -/
theorem C1_invariant {T : Type} {d : T} {v : Vec T} (h : Reachable d v) : WF v := by
  induction h with
  | nil => exact wf_nil
  | sized n => exact wf_sized d n
  | copyCtor _ ih => exact wf_copy ih
  | reserve n _ ih => exact wf_reserve ih n
  | resize n _ ih => exact wf_resize ih d n
  | push x _ ih => exact wf_emplace ih (Nat.le_refl _) x
  | pop _ h0 ih => exact wf_popBack ih h0
  | emp p x _ hp ih => exact wf_emplace ih hp x
  | del p _ hp ih => exact wf_erase ih hp
  | assign _ _ ihv ihw => exact wf_assignCopy ihv ihw
  | mvTarget _ ih => exact ih
  | mvSource _ _ => exact wf_nil
  | swapA _ _ _ ihb => exact ihb
  | swapB _ _ iha _ => exact iha
  | mvAssignA _ _ _ ihb => exact ihb
  | mvAssignB _ _ iha _ => exact iha

/-- C1 witness: a concrete reachable state satisfies the invariant. -/
theorem C1_invariant_witness :
    WF (erase (pushBack (pushBack (pushBack (vecNil : Vec Nat) 1) 2) 3) 1) :=
  @C1_invariant Nat 0 _ (Reachable.del 1
    (Reachable.push 3 (Reachable.push 2 (Reachable.push 1 Reachable.nil)))
    (by decide))

/-- C3: Reserve(n) is a no-op when n <= Capacity(); otherwise it makes the
capacity exactly n while preserving the size and the live element values. -/
theorem C3_reserve_spec {T : Type} (v : Vec T) (n : Nat) (hwf : WF v) :
    (n ≤ v.capacity → reserve v n = v) ∧
    (v.capacity < n →
      (reserve v n).capacity = n ∧ (reserve v n).size = v.size ∧
      ∀ i, i < v.size → slotOf (reserve v n) i = slotOf v i) :=
  ⟨fun h => reserve_of_le h,
   fun h => ⟨reserve_capacity h, reserve_size v n,
     fun _ hi => reserve_slot hwf h hi⟩⟩

/-- C3 witness: Reserve 10 on a size-3 vector of capacity 3. -/
theorem C3_reserve_spec_witness :
    (10 ≤ (⟨[some 1, some 2, some 3], 3⟩ : Vec Nat).capacity →
      reserve (⟨[some 1, some 2, some 3], 3⟩ : Vec Nat) 10 =
        (⟨[some 1, some 2, some 3], 3⟩ : Vec Nat)) ∧
    ((⟨[some 1, some 2, some 3], 3⟩ : Vec Nat).capacity < 10 →
      (reserve (⟨[some 1, some 2, some 3], 3⟩ : Vec Nat) 10).capacity = 10 ∧
      (reserve (⟨[some 1, some 2, some 3], 3⟩ : Vec Nat) 10).size =
        (⟨[some 1, some 2, some 3], 3⟩ : Vec Nat).size ∧
      ∀ i, i < (⟨[some 1, some 2, some 3], 3⟩ : Vec Nat).size →
        slotOf (reserve (⟨[some 1, some 2, some 3], 3⟩ : Vec Nat) 10) i =
          slotOf (⟨[some 1, some 2, some 3], 3⟩ : Vec Nat) i) :=
  C3_reserve_spec (⟨[some 1, some 2, some 3], 3⟩ : Vec Nat) 10 (by decide)

/-- C4: when an insertion finds size_ == Capacity() and must grow, the new
capacity is max(1, 2 * Capacity()): 1 from capacity 0, double otherwise. -/
theorem C4_growth {T : Type} (v : Vec T) (p : Nat) (x : T)
    (h : v.size = v.capacity) :
    (emplace v p x).capacity = max 1 (2 * v.capacity) ∧
    (insert v p x).capacity = max 1 (2 * v.capacity) ∧
    (pushBack v x).capacity = max 1 (2 * v.capacity) ∧
    ((emplaceBack v x).1).capacity = max 1 (2 * v.capacity) := by
  have hmain : ∀ q : Nat, (emplace v q x).capacity = max 1 (2 * v.capacity) := by
    intro q
    unfold emplace
    rw [if_pos h]
    unfold emplaceWithRelocation
    simp only [Vec.capacity]
    rw [copySlots_length, copySlots_length, List.length_set, List.length_replicate]
    have hcl : v.capacity = v.buf.length := rfl
    split <;> omega
  exact ⟨hmain p, hmain p, hmain v.size, hmain v.size⟩

/-- C4 witness: growing from capacity 0 and from capacity 2. -/
theorem C4_growth_witness :
    ((⟨[], 0⟩ : Vec Nat).size = (⟨[], 0⟩ : Vec Nat).capacity ∧
      (pushBack (⟨[], 0⟩ : Vec Nat) 9).capacity = max 1 (2 * (⟨[], 0⟩ : Vec Nat).capacity)) ∧
    ((⟨[some 4, some 5], 2⟩ : Vec Nat).size = (⟨[some 4, some 5], 2⟩ : Vec Nat).capacity ∧
      (emplace (⟨[some 4, some 5], 2⟩ : Vec Nat) 1 9).capacity =
        max 1 (2 * (⟨[some 4, some 5], 2⟩ : Vec Nat).capacity)) :=
  ⟨⟨by decide, (C4_growth (⟨[], 0⟩ : Vec Nat) 0 9 (by decide)).2.2.1⟩,
   ⟨by decide, (C4_growth (⟨[some 4, some 5], 2⟩ : Vec Nat) 1 9 (by decide)).1⟩⟩

/-- C7 as stated is false: PushBack is declared void, so it returns no
reference to the new element; at the empty vector the new element lands at
index 0 and EmplaceBack does return a reference to it, but PushBack
returns nothing. -/
theorem C7_counterexample :
    pushBackRet (vecNil : Vec Nat) 5 ≠ RetVal.refRet 0 ∧
    (pushBack (vecNil : Vec Nat) 5).size = 1 ∧
    slotOf (pushBack (vecNil : Vec Nat) 5) 0 = some 5 ∧
    emplaceBackRet (vecNil : Vec Nat) 5 = RetVal.refRet 0 := by
  decide

/-- C7 amended: PushBack and EmplaceBack both insert the new element at the
logical end (size grows by one and the last slot holds the value);
EmplaceBack returns a reference to the newly created element, while
PushBack returns void. -/
theorem C7_amended {T : Type} (v : Vec T) (x : T) (hwf : WF v) :
    (pushBack v x).size = v.size + 1 ∧
    slotOf (pushBack v x) v.size = some x ∧
    pushBackRet v x = RetVal.unitRet ∧
    (emplaceBack v x).1.size = v.size + 1 ∧
    slotOf (emplaceBack v x).1 v.size = some x ∧
    (emplaceBack v x).2 = v.size ∧
    emplaceBackRet v x = RetVal.refRet v.size ∧
    pushBack v x = (emplaceBack v x).1 := by
  obtain ⟨hs, _, _, hat, _, _⟩ := emplace_spec v v.size x hwf (Nat.le_refl _)
  exact ⟨hs, hat, rfl, hs, hat, rfl, rfl, rfl⟩

/-- C7 witness: the amended claim at a concrete vector. -/
theorem C7_amended_witness :
    (pushBack (⟨[some 1, none], 1⟩ : Vec Nat) 7).size =
        (⟨[some 1, none], 1⟩ : Vec Nat).size + 1 ∧
    slotOf (pushBack (⟨[some 1, none], 1⟩ : Vec Nat) 7)
        (⟨[some 1, none], 1⟩ : Vec Nat).size = some 7 ∧
    pushBackRet (⟨[some 1, none], 1⟩ : Vec Nat) 7 = RetVal.unitRet ∧
    (emplaceBack (⟨[some 1, none], 1⟩ : Vec Nat) 7).1.size =
        (⟨[some 1, none], 1⟩ : Vec Nat).size + 1 ∧
    slotOf (emplaceBack (⟨[some 1, none], 1⟩ : Vec Nat) 7).1
        (⟨[some 1, none], 1⟩ : Vec Nat).size = some 7 ∧
    (emplaceBack (⟨[some 1, none], 1⟩ : Vec Nat) 7).2 =
        (⟨[some 1, none], 1⟩ : Vec Nat).size ∧
    emplaceBackRet (⟨[some 1, none], 1⟩ : Vec Nat) 7 =
        RetVal.refRet (⟨[some 1, none], 1⟩ : Vec Nat).size ∧
    pushBack (⟨[some 1, none], 1⟩ : Vec Nat) 7 =
        (emplaceBack (⟨[some 1, none], 1⟩ : Vec Nat) 7).1 :=
  C7_amended (⟨[some 1, none], 1⟩ : Vec Nat) 7 (by decide)

/-- C8: inserting a value at position p and then erasing position p leaves
the element sequence unchanged, for every p in [0, size]. -/
theorem C8_insert_erase_roundtrip {T : Type} (v : Vec T) (p : Nat) (x : T)
    (hwf : WF v) (hp : p ≤ v.size) :
    live (erase (insert v p x) p) = live v := by
  obtain ⟨hs, hc, hlo, hat, hgt, hhigh⟩ := emplace_spec v p x hwf hp
  have hins : insert v p x = emplace v p x := rfl
  have hwfw : WF (insert v p x) := by
    rw [hins]
    exact wf_emplace hwf hp x
  have hpw : p < (insert v p x).size := by
    rw [hins, hs]
    omega
  obtain ⟨hes, hec, helo, hemid, hehigh⟩ := erase_spec (insert v p x) p hwfw hpw
  apply live_eq_of_slots
  · rw [hes, hins, hs]
    omega
  · intro i hi
    rw [hes, hins, hs] at hi
    simp only [Nat.add_sub_cancel] at hi
    by_cases h1 : i < p
    · rw [helo i h1, hins, hlo i h1]
    · have h2 : i < (insert v p x).size - 1 := by
        rw [hins, hs]
        omega
      rw [hemid i (by omega) h2, hins, hgt (i + 1) (by omega) (by omega)]
      simp

/-- C8 witness: round trip at a concrete vector and interior position. -/
theorem C8_insert_erase_roundtrip_witness :
    live (erase (insert (⟨[some 1, some 2, some 3], 3⟩ : Vec Nat) 1 99) 1) =
      live (⟨[some 1, some 2, some 3], 3⟩ : Vec Nat) :=
  C8_insert_erase_roundtrip (⟨[some 1, some 2, some 3], 3⟩ : Vec Nat) 1 99
    (by decide) (by decide)

/-- C9: assigning a vector to itself through either assignment operator is
a no-op guarded by the this != &rhs test: the state is unchanged and no
element construction or destruction happens. -/
theorem C9_self_assign {T : Type} (v : Vec T) :
    opAssignCopy true v v = (v, 0, 0) ∧ opAssignMove true v v = ((v, v), 0, 0) :=
  ⟨rfl, rfl⟩

/-- C10: no single public operation other than Swap, move construction and
move assignment ever decreases the capacity. -/
theorem C10_capacity_mono {T : Type} (v w : Vec T) (n p : Nat) (x d : T) :
    v.capacity ≤ (reserve v n).capacity ∧
    v.capacity ≤ (resize d v n).capacity ∧
    v.capacity ≤ (pushBack v x).capacity ∧
    v.capacity ≤ ((emplaceBack v x).1).capacity ∧
    v.capacity ≤ (popBack v).capacity ∧
    v.capacity ≤ (emplace v p x).capacity ∧
    v.capacity ≤ (insert v p x).capacity ∧
    v.capacity ≤ (erase v p).capacity ∧
    v.capacity ≤ (assignCopy v w).capacity := by
  refine ⟨reserve_capacity_ge v n, resize_capacity_ge d v n,
    emplace_capacity_ge v v.size x, emplace_capacity_ge v v.size x,
    ?_, emplace_capacity_ge v p x, emplace_capacity_ge v p x, ?_,
    assignCopy_capacity_ge v w⟩
  · rw [popBack_capacity]
  · rw [erase_capacity]

/-- C2: Reserve on the copy path gives the strong exception guarantee: when
the copy of some element throws during the transfer, every element already
constructed in the new buffer has been destroyed when the buffer is
released, and the vector (buffer, capacity, size and element values) is
exactly as before the call; an exception occurs exactly when some live
element fails to copy, and a normal return produces the pure Reserve
result. -/
theorem C2_reserve_strong {T : Type} (ok : T → Bool) (v : Vec T) (n : Nat)
    (hcap : v.capacity < n) :
    (∀ e, reserveE ok v n = Except.error e →
      e.1 = v ∧ ∀ s ∈ e.2, s = none) ∧
    ((∃ k, k < v.size ∧ (slotOf v k).all ok = false) ↔
      ∃ e, reserveE ok v n = Except.error e) ∧
    (∀ w, reserveE ok v n = Except.ok w → w = reserve v n) := by
  have hnle : ¬ n ≤ v.capacity := Nat.not_le.mpr hcap
  unfold reserveE
  rw [if_neg hnle]
  by_cases h2 : (uninitCopyN ok v.buf 0 (List.replicate n (none : Option T)) 0 v.size).2
  · rw [if_pos h2]
    refine ⟨?_, ?_, ?_⟩
    · intro e he
      simp at he
    · constructor
      · rintro ⟨k, hk, hbad⟩
        have hall := (uninitCopyN_succ_iff ok v.buf 0 (List.replicate n none) 0
          v.size).mp h2 k hk
        rw [Nat.zero_add] at hall
        have hall2 : (slotOf v k).all ok = true := hall
        rw [hall2] at hbad
        simp at hbad
      · rintro ⟨e, he⟩
        simp at he
    · intro w hw
      injection hw with h3
      rw [← h3]
      unfold reserve
      rw [if_neg hnle, uninitCopyN_succ_eq _ _ _ _ _ _ h2]
  · rw [if_neg h2]
    have h2f : (uninitCopyN ok v.buf 0 (List.replicate n (none : Option T)) 0
        v.size).2 = false := by
      simpa using h2
    refine ⟨?_, ?_, ?_⟩
    · intro e he
      injection he with h3
      subst h3
      refine ⟨rfl, ?_⟩
      apply eq_none_of_mem_of_getSlot
      intro i _
      rcases uninitCopyN_fail_getSlot ok v.buf 0 (List.replicate n none) 0 v.size
        h2f i with hsame | hnone
      · rw [hsame, getSlot_replicate]
      · exact hnone
    · constructor
      · intro _
        exact ⟨_, rfl⟩
      · intro _
        have hnall : ¬ ∀ j, j < v.size → (getSlot v.buf (0 + j)).all ok = true := by
          intro hall
          have hs := (uninitCopyN_succ_iff ok v.buf 0 (List.replicate n none) 0
            v.size).mpr hall
          rw [hs] at h2f
          simp at h2f
        push_neg at hnall
        obtain ⟨j, hj, hbad⟩ := hnall
        refine ⟨j, hj, ?_⟩
        rw [Nat.zero_add] at hbad
        simpa using hbad
    · intro w hw
      simp at hw

/-- C2 witness: a copy oracle failing on the value 3 makes Reserve 5 on
[1, 2, 3] throw; the vector is untouched and the released buffer holds no
constructed element. -/
theorem C2_reserve_strong_witness :
    ((⟨[some 1, some 2, some 3], 3⟩ : Vec Nat),
        ([none, none, none, none, none] : List (Option Nat))).1 =
      (⟨[some 1, some 2, some 3], 3⟩ : Vec Nat) ∧
    ∀ s ∈ ([none, none, none, none, none] : List (Option Nat)), s = none :=
  (C2_reserve_strong (fun t => decide (t < 3)) (⟨[some 1, some 2, some 3], 3⟩ : Vec Nat)
    5 (by decide)).1
    ((⟨[some 1, some 2, some 3], 3⟩ : Vec Nat), [none, none, none, none, none]) (by rfl)

/-- C5: the rollback discipline of EmplaceWithRelocation: on any failure the
vector is exactly as before the call and the new buffer holds no
constructed element when it is released; the catch handler destroys exactly
the new element when the prefix transfer throws, and exactly the new
element plus the placed prefix (indices 0..p) when the suffix transfer
throws; the old elements are destroyed only on a fully successful run,
which produces the pure EmplaceWithRelocation result. -/
theorem C5_emplace_reloc_rollback {T : Type} (ok : T → Bool) (v : Vec T) (p : Nat)
    (x : T) :
    (∀ e, emplaceWithRelocationE ok v p x = Except.error e →
      e.vecAfter = v ∧ (∀ s ∈ e.bufAtDealloc, s = none) ∧
      (e.phase = RelocPhase.newElem → e.catchDestroyed = []) ∧
      (e.phase = RelocPhase.movePre → e.catchDestroyed = [p]) ∧
      (e.phase = RelocPhase.moveSuf → e.catchDestroyed = List.range (p + 1))) ∧
    (∀ r, emplaceWithRelocationE ok v p x = Except.ok r →
      r = (emplaceWithRelocation v p x, p)) := by
  simp only [emplaceWithRelocationE]
  set m := (if v.size = 0 then 1 else v.size * 2) with hm
  set nd1 := (List.replicate m (none : Option T)).set p (some x) with hnd1
  set r1 := uninitCopyN ok v.buf 0 nd1 0 p with hr1
  set r2 := uninitCopyN ok v.buf p r1.1 (p + 1) (v.size - p) with hr2
  have hnd1none : ∀ i, i ≠ p → getSlot nd1 i = none := by
    intro i hip
    rw [hnd1, getSlot_set, if_neg (by omega), getSlot_replicate]
  by_cases hx : ok x = false
  · rw [if_pos hx]
    constructor
    · intro e he
      injection he with h3
      subst h3
      refine ⟨rfl, ?_, fun _ => rfl, ?_, ?_⟩
      · intro s hs
        exact List.eq_of_mem_replicate hs
      · intro hph
        simp at hph
      · intro hph
        simp at hph
    · intro r hr
      simp at hr
  · rw [if_neg hx]
    by_cases h1 : r1.2 = false
    · rw [if_pos h1]
      constructor
      · intro e he
        injection he with h3
        subst h3
        refine ⟨rfl, ?_, ?_, fun _ => rfl, ?_⟩
        · have := fail_set_none hnd1none (hr1 ▸ h1)
          rw [← hr1] at this
          exact this
        · intro hph
          simp at hph
        · intro hph
          simp at hph
      · intro r hr
        simp at hr
    · rw [if_neg h1]
      have h1t : r1.2 = true := by
        simpa using h1
      have hr1eq : r1.1 = copySlots v.buf 0 nd1 0 p := by
        rw [hr1]
        exact uninitCopyN_succ_eq _ _ _ _ _ _ (hr1 ▸ h1t)
      have hr1none : ∀ i, p < i → getSlot r1.1 i = none := by
        intro i hi
        rw [hr1eq, copySlots_getSlot_outside _ _ _ _ _ _ (by omega)]
        exact hnd1none i (by omega)
      by_cases hsuf : r2.2 = false
      · rw [if_pos hsuf]
        constructor
        · intro e he
          injection he with h3
          subst h3
          refine ⟨rfl, ?_, ?_, ?_, fun _ => rfl⟩
          · have := fail_destroy_none hr1none (hr2 ▸ hsuf)
            rw [← hr2] at this
            exact this
          · intro hph
            simp at hph
          · intro hph
            simp at hph
        · intro r hr
          simp at hr
      · rw [if_neg hsuf]
        constructor
        · intro e he
          simp at he
        · intro r hr
          injection hr with h3
          subst h3
          have h2t : r2.2 = true := by
            simpa using hsuf
          have hr2eq : r2.1 = copySlots v.buf p r1.1 (p + 1) (v.size - p) := by
            rw [hr2]
            exact uninitCopyN_succ_eq _ _ _ _ _ _ (hr2 ▸ h2t)
          rw [hr2eq, hr1eq, hnd1, hm]
          rfl

/-- C5 witness: with a copy oracle failing on the value 1, relocating
insertion at position 1 of [1, 2, 3] fails during the prefix transfer: the
catch destroys exactly the new element, the released buffer is fully raw,
and the vector is unchanged. -/
theorem C5_emplace_reloc_rollback_witness :
    (⟨RelocPhase.movePre, [1], [none, none, none, none, none, none],
        ⟨[some 1, some 2, some 3], 3⟩⟩ : RelocFail Nat).vecAfter =
      (⟨[some 1, some 2, some 3], 3⟩ : Vec Nat) ∧
    (∀ s ∈ (⟨RelocPhase.movePre, [1], [none, none, none, none, none, none],
        ⟨[some 1, some 2, some 3], 3⟩⟩ : RelocFail Nat).bufAtDealloc, s = none) ∧
    ((⟨RelocPhase.movePre, [1], [none, none, none, none, none, none],
        ⟨[some 1, some 2, some 3], 3⟩⟩ : RelocFail Nat).phase = RelocPhase.newElem →
      (⟨RelocPhase.movePre, [1], [none, none, none, none, none, none],
        ⟨[some 1, some 2, some 3], 3⟩⟩ : RelocFail Nat).catchDestroyed = []) ∧
    ((⟨RelocPhase.movePre, [1], [none, none, none, none, none, none],
        ⟨[some 1, some 2, some 3], 3⟩⟩ : RelocFail Nat).phase = RelocPhase.movePre →
      (⟨RelocPhase.movePre, [1], [none, none, none, none, none, none],
        ⟨[some 1, some 2, some 3], 3⟩⟩ : RelocFail Nat).catchDestroyed = [1]) ∧
    ((⟨RelocPhase.movePre, [1], [none, none, none, none, none, none],
        ⟨[some 1, some 2, some 3], 3⟩⟩ : RelocFail Nat).phase = RelocPhase.moveSuf →
      (⟨RelocPhase.movePre, [1], [none, none, none, none, none, none],
        ⟨[some 1, some 2, some 3], 3⟩⟩ : RelocFail Nat).catchDestroyed =
        List.range (1 + 1)) :=
  (C5_emplace_reloc_rollback (fun t => decide (t ≠ 1))
    (⟨[some 1, some 2, some 3], 3⟩ : Vec Nat) 1 0).1
    ⟨RelocPhase.movePre, [1], [none, none, none, none, none, none],
      ⟨[some 1, some 2, some 3], 3⟩⟩ (by rfl)

/-- C6: copy assignment with rhs.size > Capacity() builds a full temporary
copy and swaps it in: if any element copy throws, the destination is
exactly as before and the temporary buffer holds no constructed element
when it is released; on success the destination equals the source
element-wise, with size and capacity equal to the source size. -/
theorem C6_copy_assign_strong {T : Type} (ok : T → Bool) (dst rhs : Vec T)
    (hbig : dst.capacity < rhs.size) :
    (∀ e, assignCopyE ok dst rhs = Except.error e →
      e.1 = dst ∧ ∀ s ∈ e.2, s = none) ∧
    (∀ c, assignCopyE ok dst rhs = Except.ok c →
      c.size = rhs.size ∧ c.capacity = rhs.size ∧
      ∀ i, i < rhs.size → slotOf c i = slotOf rhs i) := by
  unfold assignCopyE
  rw [if_pos hbig]
  cases hcase : vecCopyE ok rhs with
  | ok c0 =>
    constructor
    · intro e he
      simp at he
    · intro c hc
      simp only at hc
      injection hc with h3
      subst h3
      have hc0 : c0 = vecCopy rhs := (vecCopyE_spec ok rhs).2 c0 hcase
      subst hc0
      obtain ⟨ha, hb, hcs⟩ := vecCopy_spec rhs
      exact ⟨ha, hb, hcs⟩
  | error l =>
    constructor
    · intro e he
      simp only at he
      injection he with h3
      subst h3
      exact ⟨rfl, (vecCopyE_spec ok rhs).1 l hcase⟩
    · intro c hc
      simp at hc

/-- C6 witness: assigning [1, 2, 3] into a capacity-1 vector with a copy
oracle failing on the value 2: the destination is untouched and the
temporary buffer is fully raw at release. -/
theorem C6_copy_assign_strong_witness :
    ((⟨[some 9], 1⟩ : Vec Nat), ([none, none, none] : List (Option Nat))).1 =
      (⟨[some 9], 1⟩ : Vec Nat) ∧
    ∀ s ∈ ([none, none, none] : List (Option Nat)), s = none :=
  (C6_copy_assign_strong (fun t => decide (t ≠ 2)) (⟨[some 9], 1⟩ : Vec Nat)
    (⟨[some 1, some 2, some 3], 3⟩ : Vec Nat) (by decide)).1
    ((⟨[some 9], 1⟩ : Vec Nat), [none, none, none]) (by rfl)

end AdvVec
